import Mathlib

/-!
Shallow embedding of the TransCode codec engine (`src/server/main.py`).

Bytes are modelled as `List Nat` (each element the value of one byte),
Python strings as `List Char`, arbitrary-precision Python integers as
`Nat`/`Int`.  Each definition mirrors one function or inline code block of
the source; the theorems at the end of the file settle the frozen claims
about the specification.
-/

namespace TransCode

/-! ## Byte/integer conversions

`int.to_bytes(k, byteorder='big')` and `int.from_bytes(_, byteorder='big')`
from the source.  `toBytesBE k n` is the `k`-byte big-endian rendering of
`n` (CPython raises `OverflowError` when `n ≥ 256 ^ k`; theorems that rely
on a `to_bytes` call therefore carry the corresponding bound as a
hypothesis). -/

def toBytesBE : Nat → Nat → List Nat
  | 0, _ => []
  | k + 1, n => toBytesBE k (n / 256) ++ [n % 256]

/-- `int.from_bytes(bs, byteorder='big')`. -/
def intFromBytesBE (bs : List Nat) : Nat :=
  bs.foldl (fun acc b => acc * 256 + b) 0

/-- Python `int.bit_length()` for a nonnegative integer. -/
def bitLength (n : Nat) : Nat := if n = 0 then 0 else Nat.log2 n + 1

/-- The minimal big-endian byte rendering used by the prime decoder:
`big_int.to_bytes((big_int.bit_length() + 7) // 8, byteorder='big')`. -/
def minimalBytes (n : Nat) : List Nat := toBytesBE ((bitLength n + 7) / 8) n

theorem toBytesBE_length (k n : Nat) : (toBytesBE k n).length = k := by
  induction k generalizing n with
  | zero => rfl
  | succ k ih => simp [toBytesBE, ih]

theorem toBytesBE_mem_lt (k n : Nat) : ∀ b ∈ toBytesBE k n, b < 256 := by
  induction k generalizing n with
  | zero => simp [toBytesBE]
  | succ k ih =>
    intro b hb
    simp only [toBytesBE, List.mem_append, List.mem_singleton] at hb
    rcases hb with h | h
    · exact ih _ _ h
    · omega

theorem intFromBytesBE_foldl (bs : List Nat) (a : Nat) :
    bs.foldl (fun acc b => acc * 256 + b) a =
      a * 256 ^ bs.length + intFromBytesBE bs := by
  induction bs generalizing a with
  | nil => simp [intFromBytesBE]
  | cons b t ih =>
    simp only [List.foldl_cons, List.length_cons, intFromBytesBE, Nat.zero_mul, Nat.zero_add]
    rw [ih (a * 256 + b), ih b]
    ring

theorem intFromBytesBE_cons (b : Nat) (t : List Nat) :
    intFromBytesBE (b :: t) = b * 256 ^ t.length + intFromBytesBE t := by
  simp only [intFromBytesBE, List.foldl_cons]
  simpa using intFromBytesBE_foldl t b

theorem intFromBytesBE_append (xs ys : List Nat) :
    intFromBytesBE (xs ++ ys) =
      intFromBytesBE xs * 256 ^ ys.length + intFromBytesBE ys := by
  simp only [intFromBytesBE, List.foldl_append]
  simpa using intFromBytesBE_foldl ys (intFromBytesBE xs)

theorem intFromBytesBE_lt (bs : List Nat) (h : ∀ b ∈ bs, b < 256) :
    intFromBytesBE bs < 256 ^ bs.length := by
  induction bs with
  | nil => simp [intFromBytesBE]
  | cons b t ih =>
    rw [intFromBytesBE_cons]
    have hb : b < 256 := h b (List.mem_cons_self b t)
    have ht := ih (fun x hx => h x (List.mem_cons_of_mem b hx))
    have : b * 256 ^ t.length + intFromBytesBE t <
        (b + 1) * 256 ^ t.length := by nlinarith [pow_pos (by norm_num : (0:ℕ) < 256) t.length]
    calc b * 256 ^ t.length + intFromBytesBE t < (b + 1) * 256 ^ t.length := this
      _ ≤ 256 * 256 ^ t.length := by
          have : b + 1 ≤ 256 := hb
          exact Nat.mul_le_mul_right _ this
      _ = 256 ^ (t.length + 1) := by ring
      _ = 256 ^ (b :: t).length := by simp

theorem intFromBytesBE_toBytesBE (k n : Nat) :
    intFromBytesBE (toBytesBE k n) = n % 256 ^ k := by
  induction k generalizing n with
  | zero => simp [toBytesBE, intFromBytesBE, Nat.mod_one]
  | succ k ih =>
    have hIb : intFromBytesBE [n % 256] = n % 256 := by simp [intFromBytesBE]
    rw [toBytesBE, intFromBytesBE_append, hIb, ih]
    simp only [List.length_singleton, pow_one]
    rw [pow_succ' 256 k, Nat.mod_mul]
    ring

theorem toBytesBE_intFromBytesBE (bs : List Nat) (h : ∀ b ∈ bs, b < 256) :
    toBytesBE bs.length (intFromBytesBE bs) = bs := by
  induction bs using List.reverseRecOn with
  | nil => simp [toBytesBE, intFromBytesBE]
  | append_singleton xs b ih =>
    have hb : b < 256 := h b (by simp)
    have hxs : ∀ x ∈ xs, x < 256 := fun x hx => h x (by simp [hx])
    have hIb : intFromBytesBE [b] = b := by simp [intFromBytesBE]
    rw [intFromBytesBE_append, hIb]
    simp only [List.length_append, List.length_singleton, pow_one]
    have hdiv : (intFromBytesBE xs * 256 + b) / 256 = intFromBytesBE xs := by
      omega
    have hmod : (intFromBytesBE xs * 256 + b) % 256 = b := by
      omega
    simp only [toBytesBE]
    rw [hdiv, hmod, ih hxs]

theorem minimalBytes_intFromBytesBE (bs : List Nat) (h : ∀ b ∈ bs, b < 256)
    (hhead : bs.headD 1 ≠ 0) : minimalBytes (intFromBytesBE bs) = bs := by
  cases bs with
  | nil => simp [minimalBytes, intFromBytesBE, bitLength, toBytesBE]
  | cons b t =>
    have hb0 : b ≠ 0 := by simpa using hhead
    have hlow : 256 ^ t.length ≤ intFromBytesBE (b :: t) := by
      rw [intFromBytesBE_cons]
      have : 1 * 256 ^ t.length ≤ b * 256 ^ t.length :=
        Nat.mul_le_mul_right _ (by omega)
      omega
    have hhigh : intFromBytesBE (b :: t) < 256 ^ (b :: t).length :=
      intFromBytesBE_lt _ h
    have hne : intFromBytesBE (b :: t) ≠ 0 := by
      have : (0 : ℕ) < 256 ^ t.length := pow_pos (by norm_num) _
      omega
    have h256 : ∀ m : ℕ, (256 : ℕ) ^ m = 2 ^ (8 * m) := by
      intro m
      rw [pow_mul]
      norm_num
    have hlog_lo : 8 * t.length ≤ Nat.log2 (intFromBytesBE (b :: t)) := by
      rw [Nat.le_log2 hne, ← h256]
      exact hlow
    have hlog_hi : Nat.log2 (intFromBytesBE (b :: t)) < 8 * (t.length + 1) := by
      rw [Nat.log2_lt hne, ← h256]
      simpa using hhigh
    have hlen : (bitLength (intFromBytesBE (b :: t)) + 7) / 8 = (b :: t).length := by
      rw [bitLength, if_neg hne]
      simp only [List.length_cons]
      omega
    rw [minimalBytes, hlen, toBytesBE_intFromBytesBE _ h]

theorem intFromBytesBE_dropWhile (bs : List Nat) :
    intFromBytesBE (bs.dropWhile (fun x => x == 0)) = intFromBytesBE bs := by
  induction bs with
  | nil => rfl
  | cons b t ih =>
    by_cases hb : b = 0
    · subst hb
      rw [List.dropWhile_cons_of_pos (by simp)]
      rw [ih, intFromBytesBE_cons]
      simp
    · rw [List.dropWhile_cons_of_neg (by simp [hb])]

theorem headD_dropWhile_zero (bs : List Nat) :
    ((bs.dropWhile (fun x => x == 0)).headD 1) ≠ 0 := by
  induction bs with
  | nil => simp
  | cons b t ih =>
    by_cases hb : b = 0
    · subst hb
      rw [List.dropWhile_cons_of_pos (by simp)]
      exact ih
    · rw [List.dropWhile_cons_of_neg (by simp [hb])]
      simpa using hb

theorem minimalBytes_eq_dropWhile (bs : List Nat) (h : ∀ b ∈ bs, b < 256) :
    minimalBytes (intFromBytesBE bs) = bs.dropWhile (fun x => x == 0) := by
  rw [← intFromBytesBE_dropWhile]
  refine minimalBytes_intFromBytesBE _ (fun b hb => h b ?_) (headD_dropWhile_zero bs)
  exact (List.dropWhile_sublist _).subset hb

/-! ## Header framing

The inline framing code of `bytes_to_prime_string` / `prime_string_to_bytes`:
a 4-byte big-endian filename length, the UTF-8 filename bytes, a 4-byte
big-endian payload length, then the payload.  Python strings are represented
by the byte list of their UTF-8 encoding; `isValidUtf8` models the success
condition of `bytes.decode('utf-8')` (strict mode, surrogates rejected). -/

def isCont (b : Nat) : Bool := 128 ≤ b && b ≤ 191

def isValidUtf8 : List Nat → Bool
  | [] => true
  | b :: rest =>
    if b ≤ 127 then isValidUtf8 rest
    else if 194 ≤ b && b ≤ 223 then
      match rest with
      | c1 :: r => isCont c1 && isValidUtf8 r
      | [] => false
    else if b = 224 then
      match rest with
      | c1 :: c2 :: r => (160 ≤ c1 && c1 ≤ 191) && isCont c2 && isValidUtf8 r
      | _ => false
    else if (225 ≤ b && b ≤ 236) || b = 238 || b = 239 then
      match rest with
      | c1 :: c2 :: r => isCont c1 && isCont c2 && isValidUtf8 r
      | _ => false
    else if b = 237 then
      match rest with
      | c1 :: c2 :: r => (128 ≤ c1 && c1 ≤ 159) && isCont c2 && isValidUtf8 r
      | _ => false
    else if b = 240 then
      match rest with
      | c1 :: c2 :: c3 :: r => (144 ≤ c1 && c1 ≤ 191) && isCont c2 && isCont c3 && isValidUtf8 r
      | _ => false
    else if 241 ≤ b && b ≤ 243 then
      match rest with
      | c1 :: c2 :: c3 :: r => isCont c1 && isCont c2 && isCont c3 && isValidUtf8 r
      | _ => false
    else if b = 244 then
      match rest with
      | c1 :: c2 :: c3 :: r => (128 ≤ c1 && c1 ≤ 143) && isCont c2 && isCont c3 && isValidUtf8 r
      | _ => false
    else false

/-- The UTF-8 bytes of the synthesized fallback filename `"decoded_file"`. -/
def decodedFileName : List Nat := [100, 101, 99, 111, 100, 101, 100, 95, 102, 105, 108, 101]

/-- The framing header built by `bytes_to_prime_string` (lines 61-72 of the
source): `filename_len.to_bytes(4,'big') + filename_bytes +
data_len.to_bytes(4,'big') + data`. -/
def frame (data fname : List Nat) : List Nat :=
  toBytesBE 4 fname.length ++ fname ++ toBytesBE 4 data.length ++ data

/-- The strict header parse attempted by `prime_string_to_bytes`
(lines 92-122 of the source) on the reconstructed byte string: `none`
mirrors falling through to the legacy fallback. -/
def unframeStrict? (full : List Nat) : Option (List Nat × List Nat) :=
  if 8 ≤ full.length then
    let filenameLen := intFromBytesBE (full.take 4)
    if filenameLen ≤ 500 then
      if 4 + filenameLen ≤ full.length then
        let fname := (full.drop 4).take filenameLen
        if isValidUtf8 fname then
          if 4 + filenameLen + 4 ≤ full.length then
            let dataLen := intFromBytesBE ((full.drop (4 + filenameLen)).take 4)
            if dataLen ≤ full.length - (4 + filenameLen + 4) then
              some ((full.drop (4 + filenameLen + 4)).take dataLen, fname)
            else none
          else none
        else none
      else none
    else none
  else none

/-- `prime_string_to_bytes`' two-tier parse: strict framing first, then the
legacy fallback `(full_data, "decoded_file")` (line 125 of the source). -/
def unframe (full : List Nat) : List Nat × List Nat :=
  (unframeStrict? full).getD (full, decodedFileName)

/-! ## Decimal strings and Python `int()` parsing

`natToDecChars n` is `str(big_int)` for a nonnegative integer.  `pyInt?`
models the success condition and value of the builtin `int(s)` (base 10)
over ASCII strings: optional surrounding whitespace, an optional single
sign, then decimal digits with single underscores allowed between digits. -/

def decDigitChar : Nat → Char
  | 0 => '0'
  | 1 => '1'
  | 2 => '2'
  | 3 => '3'
  | 4 => '4'
  | 5 => '5'
  | 6 => '6'
  | 7 => '7'
  | 8 => '8'
  | _ => '9'

def natToDecAux (n : Nat) (acc : List Char) : List Char :=
  if n < 10 then decDigitChar n :: acc
  else natToDecAux (n / 10) (decDigitChar (n % 10) :: acc)
termination_by n
decreasing_by exact Nat.div_lt_self (by omega) (by omega)

/-- `str(n)` for a nonnegative Python integer. -/
def natToDecChars (n : Nat) : List Char := natToDecAux n []

def isDecDigit (c : Char) : Bool := decide ('0' ≤ c) && decide (c ≤ '9')

def charVal (c : Char) : Nat := c.toNat - 48

def parseUDigitsGo : List Char → Nat → Option Nat
  | [], acc => some acc
  | c :: rest, acc =>
    if isDecDigit c then parseUDigitsGo rest (acc * 10 + charVal c)
    else if c = '_' then
      match rest with
      | c2 :: rest2 =>
        if isDecDigit c2 then parseUDigitsGo rest2 (acc * 10 + charVal c2) else none
      | [] => none
    else none

/-- Digit-group grammar of a CPython integer literal body: a leading digit,
then digits with single interior underscores. -/
def parseUDigits : List Char → Option Nat
  | [] => none
  | c :: rest => if isDecDigit c then parseUDigitsGo rest (charVal c) else none

def isPySpace (c : Char) : Bool :=
  c = ' ' || c = '\t' || c = '\n' || c = '\r' || c = '\x0b' || c = '\x0c'

def pyStrip (s : List Char) : List Char :=
  ((s.dropWhile isPySpace).reverse.dropWhile isPySpace).reverse

/-- Sign handling of the builtin `int(s)` after whitespace stripping. -/
def pyIntCore : List Char → Option Int
  | [] => none
  | c :: rest =>
    if c = '+' then (parseUDigits rest).map (fun k => (k : Int))
    else if c = '-' then (parseUDigits rest).map (fun k => -(k : Int))
    else (parseUDigits (c :: rest)).map (fun k => (k : Int))

/-- The builtin `int(s)` (base 10) on an ASCII string: `none` models
`ValueError`. -/
def pyInt? (s : List Char) : Option Int := pyIntCore (pyStrip s)

/-! ## The Big-Integer codec (`bytes_to_prime_string` / `prime_string_to_bytes`) -/

/-- `sys.set_int_max_str_digits(0)` from line 16 of the source: the digit
limit for `str(int)` is disabled. -/
def intMaxStrDigits : Nat := 0

/-- `str(big_int)` inside the `try` of `bytes_to_prime_string`: CPython
raises `ValueError` when a nonzero digit limit is configured and the
rendering exceeds it; `none` models that error. -/
def strOfNat? (n : Nat) : Option (List Char) :=
  if intMaxStrDigits = 0 || (natToDecChars n).length ≤ intMaxStrDigits then
    some (natToDecChars n)
  else none

/-- `bytes_to_prime_string(data, filename)` (lines 56-80): frame, interpret
big-endian, render in decimal.  The `except ValueError` branch is modelled
by the `none` arm; in the source that arm evaluates `big_int.hex()`, an
attribute that does not exist on `int`, so reaching it would raise rather
than produce a string — the arm is dead under `intMaxStrDigits = 0`
(claim C10). -/
def bytes_to_prime_string (data fname : List Nat) : List Char :=
  match strOfNat? (intFromBytesBE (frame data fname)) with
  | some s => s
  | none => []

/-- `prime_string_to_bytes(prime_str)` (lines 82-127): parse with `int()`,
take the minimal big-endian bytes, then the two-tier unframe.  `none`
models the `Invalid prime string` HTTP 400: parse failure, or a negative
value (whose `to_bytes` raises `OverflowError` inside the same `try`). -/
def prime_string_to_bytes (s : List Char) : Option (List Nat × List Nat) :=
  (pyInt? s).bind fun z =>
    if z < 0 then none else some (unframe (minimalBytes z.toNat))

/-- `int.to_bytes(k, byteorder='big')` with CPython's `OverflowError` made
explicit: the call raises — modelled as `none` — exactly when
`n ≥ 256 ^ k`. -/
def toBytesBE? (k n : Nat) : Option (List Nat) :=
  if n < 256 ^ k then some (toBytesBE k n) else none

/-- The header construction of `bytes_to_prime_string` (lines 61-72) with
its two `to_bytes(4, 'big')` calls.  These sit outside the `try`, so an
oversized filename or payload length raises an uncaught `OverflowError`,
modelled as `none`. -/
def frame? (data fname : List Nat) : Option (List Nat) :=
  (toBytesBE? 4 fname.length).bind fun fn4 =>
    (toBytesBE? 4 data.length).map fun dn4 =>
      fn4 ++ fname ++ dn4 ++ data

/-- `bytes_to_prime_string` with the header construction's uncaught
`OverflowError` made explicit: `none` exactly when a length field does not
fit in four bytes; otherwise the rendering of the framed integer, as in
`bytes_to_prime_string`. -/
def bytes_to_prime_string? (data fname : List Nat) : Option (List Char) :=
  (frame? data fname).map fun full =>
    match strOfNat? (intFromBytesBE full) with
    | some s => s
    | none => []

/-! ## Note-sequence (MIDI) codec

The carrier is modelled as the list of note messages of the data track;
the container serialization is an excluded external collaborator. -/

inductive MidiMsg where
  | noteOn (note velocity time : Nat)
  | noteOff (note velocity time : Nat)
deriving DecidableEq, Repr

/-- The byte loop of `encode_to_midi` (lines 193-200): byte at index `i`
yields `note_on(48 + b % 64, max(40, min(127, 40 + (b >> 2))), 120 if i > 0
else 0)` followed by the matching `note_off` with delta time 120. -/
def encodeFrom : Nat → List Nat → List MidiMsg
  | _, [] => []
  | i, b :: rest =>
    .noteOn (48 + b % 64) (max 40 (min 127 (40 + b / 4))) (if 0 < i then 120 else 0) ::
    .noteOff (48 + b % 64) (max 40 (min 127 (40 + b / 4))) 120 ::
    encodeFrom (i + 1) rest

def encode_to_midi (content : List Nat) : List MidiMsg := encodeFrom 0 content

/-- The per-event inversion of `decode_from_midi` (lines 244-247), using
Python integer semantics (`%` is `Int.emod`, `<< 2` multiplies by 4, the
result is reduced `% 256` before being appended). -/
def decodeByte (note velocity : Nat) : Nat :=
  let noteOffset : Int := (note : Int) - 48
  let velocityPart : Int := ((velocity : Int) - 40) * 4
  let byteValue : Int := noteOffset % 64 + min 192 (max 0 velocityPart)
  (byteValue % 256).toNat

/-- The extraction loop of `decode_from_midi` (lines 241-247) over the first
track: every `note_on` event contributes one byte, in order. -/
def decodeTrack : List MidiMsg → List Nat
  | [] => []
  | .noteOn n v _ :: rest => decodeByte n v :: decodeTrack rest
  | .noteOff _ _ _ :: rest => decodeTrack rest

/-! ## Verifier (`verify_hashes`, lines 415-421) -/

/-- ASCII model of Python `str.lower()` applied per character. -/
def lowerChar (c : Char) : Char :=
  if 'A' ≤ c ∧ c ≤ 'Z' then Char.ofNat (c.toNat + 32) else c

/-- `verify_hashes`: the pair `(verified, match)` of the response model.
`match` is case-insensitive equality, `verified` requires both digests to
have length 64. -/
def verify_hashes (originalHash decodedHash : List Char) : Bool × Bool :=
  (decide (originalHash.length = 64 ∧ decodedHash.length = 64),
   decide (originalHash.map lowerChar = decodedHash.map lowerChar))

/-! ## QR codec and HTTP-endpoint guards -/

/-- Error kinds surfaced as HTTP 400 by the endpoints (spec section 7). -/
inductive ApiError where
  | emptyInput
  | payloadTooLarge
  | malformedCarrier
  | invalidEncoding
deriving DecidableEq, Repr

def base64Alphabet : List Char :=
  "ABCDEFGHIJKLMNOPQRSTUVWXYZabcdefghijklmnopqrstuvwxyz0123456789+/".toList

def b64At (i : Nat) : Char := base64Alphabet.getD i '='

/-- `base64.b64encode` on a byte list, as the character list of its ASCII
output. -/
def base64Chars : List Nat → List Char
  | [] => []
  | [a] => [b64At (a / 4), b64At (a % 4 * 16), '=', '=']
  | [a, b] => [b64At (a / 4), b64At (a % 4 * 16 + b / 16), b64At (b % 16 * 4), '=']
  | a :: b :: c :: rest =>
    b64At (a / 4) :: b64At (a % 4 * 16 + b / 16) :: b64At (b % 16 * 4 + c / 64) ::
    b64At (c % 64) :: base64Chars rest

/-- The structured record `{filename, hash, data}` serialized into the QR
symbol by `encode_to_qr` (lines 323-327). -/
structure QRRecord where
  filename : List Nat
  hash : List Char
  data : List Char
deriving DecidableEq, Repr

/-- `encode_to_midi` endpoint (lines 181-219): empty-input guard, then the
byte loop.  The container serialization and response framing are external. -/
def encode_to_midi_endpoint (content : List Nat) : Except ApiError (List MidiMsg) :=
  if content.isEmpty then .error .emptyInput
  else .ok (encode_to_midi content)

/-- `decode_from_midi` endpoint (lines 221-258): empty-input guard before
the carrier is parsed (`parseMidi` abstracts the external `MidiFile`
parser), `MalformedCarrier` for an unparsable file or zero tracks, then the
extraction loop over the first track. -/
def decode_from_midi_endpoint (parseMidi : List Nat → Option (List (List MidiMsg)))
    (content : List Nat) : Except ApiError (List Nat) :=
  if content.isEmpty then .error .emptyInput
  else
    match parseMidi content with
    | none => .error .malformedCarrier
    | some [] => .error .malformedCarrier
    | some (track :: _) => .ok (decodeTrack track)

/-- `encode_to_prime` endpoint (lines 261-280): empty-input guard, then
`bytes_to_prime_string`. -/
def encode_to_prime_endpoint (content fname : List Nat) : Except ApiError (List Char) :=
  if content.isEmpty then .error .emptyInput
  else .ok (bytes_to_prime_string content fname)

/-- `encode_to_qr` endpoint (lines 308-358): empty-input guard, then the
500 KiB ceiling (line 316), then the structured record; `hashHex` abstracts
the external SHA-256, and the image rendering is external. -/
def encode_to_qr_endpoint (hashHex : List Nat → List Char) (content fname : List Nat) :
    Except ApiError QRRecord :=
  if content.isEmpty then .error .emptyInput
  else if 500 * 1024 < content.length then .error .payloadTooLarge
  else .ok { filename := fname, hash := hashHex content, data := base64Chars content }

/-- Modelled from the spec (claim C2's comparator): a string that is "a
valid base-16 numeral" — nonempty and made of hexadecimal digits. -/
def specValidBase16 (s : List Char) : Bool :=
  !s.isEmpty && s.all (fun c =>
    (decide ('0' ≤ c) && decide (c ≤ '9')) ||
    (decide ('a' ≤ c) && decide (c ≤ 'f')) ||
    (decide ('A' ≤ c) && decide (c ≤ 'F')))

/-! ## Lemmas: `int(str(n)) = n` for nonnegative `n` -/

theorem isDecDigit_decDigitChar (d : Nat) : isDecDigit (decDigitChar d) = true := by
  match d with
  | 0 => decide
  | 1 => decide
  | 2 => decide
  | 3 => decide
  | 4 => decide
  | 5 => decide
  | 6 => decide
  | 7 => decide
  | 8 => decide
  | n + 9 => exact (by decide : isDecDigit '9' = true)

theorem charVal_decDigitChar (d : Nat) (h : d < 10) : charVal (decDigitChar d) = d := by
  interval_cases d <;> decide

theorem natToDecAux_append (n : Nat) : ∀ acc : List Char,
    natToDecAux n acc = natToDecAux n [] ++ acc := by
  induction n using Nat.strong_induction_on with
  | _ n ih =>
    intro acc
    by_cases h : n < 10
    · rw [natToDecAux, if_pos h, natToDecAux, if_pos h]
      rfl
    · have hlt : n / 10 < n := Nat.div_lt_self (by omega) (by omega)
      rw [natToDecAux, if_neg h]
      conv_rhs => rw [natToDecAux, if_neg h]
      rw [ih _ hlt (decDigitChar (n % 10) :: acc), ih _ hlt [decDigitChar (n % 10)]]
      simp

theorem natToDecChars_lt (n : Nat) (h : n < 10) :
    natToDecChars n = [decDigitChar n] := by
  rw [natToDecChars, natToDecAux, if_pos h]

theorem natToDecChars_ge (n : Nat) (h : ¬ n < 10) :
    natToDecChars n = natToDecChars (n / 10) ++ [decDigitChar (n % 10)] := by
  rw [natToDecChars, natToDecAux, if_neg h, natToDecAux_append]
  rfl

theorem natToDecChars_mem_digit (n : Nat) :
    ∀ c ∈ natToDecChars n, isDecDigit c = true := by
  induction n using Nat.strong_induction_on with
  | _ n ih =>
    by_cases h : n < 10
    · rw [natToDecChars_lt n h]
      intro c hc
      rw [List.mem_singleton] at hc
      subst hc
      exact isDecDigit_decDigitChar n
    · rw [natToDecChars_ge n h]
      intro c hc
      rcases List.mem_append.1 hc with h1 | h2
      · exact ih (n / 10) (Nat.div_lt_self (by omega) (by omega)) c h1
      · rw [List.mem_singleton] at h2
        subst h2
        exact isDecDigit_decDigitChar _

theorem natToDecChars_ne_nil (n : Nat) : natToDecChars n ≠ [] := by
  by_cases h : n < 10
  · rw [natToDecChars_lt n h]
    simp
  · rw [natToDecChars_ge n h]
    simp

def charsVal (cs : List Char) : Nat := cs.foldl (fun a c => a * 10 + charVal c) 0

theorem charsVal_natToDecChars (n : Nat) : charsVal (natToDecChars n) = n := by
  induction n using Nat.strong_induction_on with
  | _ n ih =>
    by_cases h : n < 10
    · rw [natToDecChars_lt n h]
      simp [charsVal, charVal_decDigitChar n h]
    · rw [natToDecChars_ge n h]
      have := ih (n / 10) (Nat.div_lt_self (by omega) (by omega))
      simp only [charsVal, List.foldl_append, List.foldl_cons, List.foldl_nil]
      rw [show (natToDecChars (n / 10)).foldl (fun a c => a * 10 + charVal c) 0 = n / 10 from this]
      rw [charVal_decDigitChar _ (Nat.mod_lt _ (by omega))]
      omega

theorem parseUDigitsGo_all_digits (cs : List Char) : ∀ acc : Nat,
    (∀ c ∈ cs, isDecDigit c = true) →
    parseUDigitsGo cs acc = some (cs.foldl (fun a c => a * 10 + charVal c) acc) := by
  induction cs with
  | nil =>
    intro acc _
    rfl
  | cons c rest ih =>
    intro acc h
    have hc : isDecDigit c = true := h c (List.mem_cons_self c rest)
    rw [parseUDigitsGo.eq_def]
    simp only [if_pos hc, List.foldl_cons]
    exact ih _ (fun x hx => h x (List.mem_cons_of_mem c hx))

theorem parseUDigits_natToDecChars (n : Nat) :
    parseUDigits (natToDecChars n) = some n := by
  obtain ⟨c, rest, hcr⟩ := List.exists_cons_of_ne_nil (natToDecChars_ne_nil n)
  have hdig := natToDecChars_mem_digit n
  rw [hcr] at hdig
  have hc : isDecDigit c = true := hdig c (List.mem_cons_self c rest)
  rw [hcr, parseUDigits, if_pos hc,
    parseUDigitsGo_all_digits rest _ (fun x hx => hdig x (List.mem_cons_of_mem c hx))]
  have hval : charsVal (natToDecChars n) = n := charsVal_natToDecChars n
  rw [hcr] at hval
  simp only [charsVal, List.foldl_cons, Nat.zero_mul, Nat.zero_add] at hval
  rw [hval]

theorem not_isPySpace_of_isDecDigit (c : Char) (h : isDecDigit c = true) :
    isPySpace c = false := by
  have h9 : '0' ≤ c ∧ c ≤ '9' := by simpa [isDecDigit] using h
  simp only [isPySpace, Bool.or_eq_false_iff, decide_eq_false_iff_not]
  refine ⟨⟨⟨⟨⟨?_, ?_⟩, ?_⟩, ?_⟩, ?_⟩, ?_⟩ <;> rintro rfl <;> revert h9 <;> decide

theorem pyStrip_of_digits (cs : List Char) (hne : cs ≠ [])
    (h : ∀ c ∈ cs, isDecDigit c = true) : pyStrip cs = cs := by
  obtain ⟨c, rest, rfl⟩ := List.exists_cons_of_ne_nil hne
  have h1 : (c :: rest).dropWhile isPySpace = c :: rest := by
    rw [List.dropWhile_cons_of_neg]
    simp [not_isPySpace_of_isDecDigit c (h c (List.mem_cons_self c rest))]
  rw [pyStrip, h1]
  cases hr : (c :: rest).reverse with
  | nil => simp at hr
  | cons d tail =>
    have hd : d ∈ c :: rest := by
      rw [← List.mem_reverse, hr]
      exact List.mem_cons_self d tail
    have h2 : (d :: tail).dropWhile isPySpace = d :: tail := by
      rw [List.dropWhile_cons_of_neg]
      simp [not_isPySpace_of_isDecDigit d (h d hd)]
    rw [h2, ← hr, List.reverse_reverse]

theorem pyInt?_natToDecChars (n : Nat) : pyInt? (natToDecChars n) = some (n : Int) := by
  have hdig := natToDecChars_mem_digit n
  have hne := natToDecChars_ne_nil n
  have hstrip : pyStrip (natToDecChars n) = natToDecChars n :=
    pyStrip_of_digits _ hne hdig
  obtain ⟨c, rest, hcr⟩ := List.exists_cons_of_ne_nil hne
  have hc : isDecDigit c = true := hdig c (hcr ▸ List.mem_cons_self c rest)
  have hplus : c ≠ '+' := by
    intro hEq
    rw [hEq] at hc
    exact absurd hc (by decide)
  have hminus : c ≠ '-' := by
    intro hEq
    rw [hEq] at hc
    exact absurd hc (by decide)
  rw [pyInt?, hstrip, hcr, pyIntCore, if_neg hplus, if_neg hminus, ← hcr,
    parseUDigits_natToDecChars]
  rfl

/-! ## Lemmas: framing and the prime round trip -/

theorem frame_length (data fname : List Nat) :
    (frame data fname).length = 8 + fname.length + data.length := by
  simp only [frame, List.length_append, toBytesBE_length]
  omega

theorem take_append_eq_left {A : Type} (xs ys : List A) (n : Nat) (h : xs.length = n) :
    (xs ++ ys).take n = xs := by
  subst h
  simp

theorem drop_append_eq_right {A : Type} (xs ys : List A) (n : Nat) (h : xs.length = n) :
    (xs ++ ys).drop n = ys := by
  subst h
  simp

theorem frame_assoc (data fname : List Nat) :
    frame data fname =
      toBytesBE 4 fname.length ++ (fname ++ (toBytesBE 4 data.length ++ data)) := by
  rw [frame]
  simp [List.append_assoc]

theorem frame_mem_lt (data fname : List Nat) (hd : ∀ b ∈ data, b < 256)
    (hf : ∀ b ∈ fname, b < 256) : ∀ b ∈ frame data fname, b < 256 := by
  intro b hb
  simp only [frame_assoc, List.mem_append] at hb
  rcases hb with h | h | h | h
  · exact toBytesBE_mem_lt 4 _ b h
  · exact hf b h
  · exact toBytesBE_mem_lt 4 _ b h
  · exact hd b h

theorem frame_take4 (data fname : List Nat) :
    (frame data fname).take 4 = toBytesBE 4 fname.length := by
  have h4 : (toBytesBE 4 fname.length).length = 4 := toBytesBE_length 4 _
  calc (frame data fname).take 4
      = (toBytesBE 4 fname.length ++ (fname ++ (toBytesBE 4 data.length ++ data))).take
          (toBytesBE 4 fname.length).length := by rw [frame_assoc, h4]
    _ = toBytesBE 4 fname.length := by simp

theorem frame_drop4 (data fname : List Nat) :
    (frame data fname).drop 4 = fname ++ (toBytesBE 4 data.length ++ data) := by
  have h4 : (toBytesBE 4 fname.length).length = 4 := toBytesBE_length 4 _
  calc (frame data fname).drop 4
      = (toBytesBE 4 fname.length ++ (fname ++ (toBytesBE 4 data.length ++ data))).drop
          (toBytesBE 4 fname.length).length := by rw [frame_assoc, h4]
    _ = fname ++ (toBytesBE 4 data.length ++ data) := by simp

theorem unframeStrict?_frame (data fname : List Nat) (hutf : isValidUtf8 fname = true)
    (hflen : fname.length ≤ 500) (hdlen : data.length < 4294967296) :
    unframeStrict? (frame data fname) = some (data, fname) := by
  have hlen := frame_length data fname
  have h2564 : (256 : ℕ) ^ 4 = 4294967296 := by norm_num
  have hIfl : intFromBytesBE ((frame data fname).take 4) = fname.length := by
    rw [frame_take4, intFromBytesBE_toBytesBE, h2564]
    omega
  have hfslice : ((frame data fname).drop 4).take fname.length = fname := by
    rw [frame_drop4]
    simp
  have hdrop2 : (frame data fname).drop (4 + fname.length) =
      toBytesBE 4 data.length ++ data := by
    rw [← List.drop_drop, frame_drop4]
    simp
  have htb4 : (toBytesBE 4 data.length).length = 4 := toBytesBE_length 4 _
  have hIdl : intFromBytesBE (((frame data fname).drop (4 + fname.length)).take 4) =
      data.length := by
    rw [hdrop2, take_append_eq_left _ _ 4 htb4, intFromBytesBE_toBytesBE, h2564]
    omega
  have hpayload : ((frame data fname).drop (4 + fname.length + 4)).take data.length =
      data := by
    rw [← List.drop_drop, hdrop2, drop_append_eq_right _ _ 4 htb4]
    simp
  simp only [unframeStrict?]
  rw [hIfl, hIdl, hlen, hfslice, hpayload]
  rw [if_pos (by omega : 8 ≤ 8 + fname.length + data.length)]
  rw [if_pos hflen]
  rw [if_pos (by omega : 4 + fname.length ≤ 8 + fname.length + data.length)]
  rw [if_pos hutf]
  rw [if_pos (by omega : 4 + fname.length + 4 ≤ 8 + fname.length + data.length)]
  rw [if_pos (by omega :
    data.length ≤ 8 + fname.length + data.length - (4 + fname.length + 4))]

theorem unframeStrict?_eq_none_of_headD (bs : List Nat) (h : bs.headD 1 ≠ 0) :
    unframeStrict? bs = none := by
  match bs with
  | [] => rfl
  | b :: t =>
    have hb : 1 ≤ b := by
      have hb0 : b ≠ 0 := by simpa using h
      omega
    by_cases hlen : 8 ≤ (b :: t).length
    · have ht7 : 7 ≤ t.length := by
        simp only [List.length_cons] at hlen
        omega
      have htake : (b :: t).take 4 = b :: t.take 3 := by rw [List.take_succ_cons]
      have h3 : (t.take 3).length = 3 := by
        rw [List.length_take]
        omega
      have hL : 500 < intFromBytesBE ((b :: t).take 4) := by
        rw [htake, intFromBytesBE_cons, h3]
        have hmul : 1 * 256 ^ 3 ≤ b * 256 ^ 3 := Nat.mul_le_mul_right _ hb
        norm_num at hmul ⊢
        omega
      simp only [unframeStrict?]
      rw [if_pos hlen, if_neg (by omega)]
    · simp only [unframeStrict?]
      rw [if_neg hlen]

/-- The strict-validation failure conditions enumerated by the source's
nested `if`s (and by claim C5): a length field extending past the buffer,
a filename length over 500, a filename slice that is not valid UTF-8, or a
payload length exceeding the remaining bytes. -/
def strictFrameFails (full : List Nat) : Prop :=
  full.length < 8 ∨
  500 < intFromBytesBE (full.take 4) ∨
  full.length < 4 + intFromBytesBE (full.take 4) + 4 ∨
  isValidUtf8 ((full.drop 4).take (intFromBytesBE (full.take 4))) = false ∨
  full.length - (4 + intFromBytesBE (full.take 4) + 4) <
    intFromBytesBE ((full.drop (4 + intFromBytesBE (full.take 4))).take 4)

theorem unframeStrict?_eq_none_of_fails (full : List Nat) (h : strictFrameFails full) :
    unframeStrict? full = none := by
  simp only [unframeStrict?]
  split_ifs with h1 h2 h3 h4 h5 h6
  · exfalso
    rcases h with hc | hc | hc | hc | hc
    · omega
    · omega
    · omega
    · rw [h4] at hc
      exact absurd hc (by simp)
    · omega
  all_goals rfl

theorem prime_encode_eq (data fname : List Nat) :
    bytes_to_prime_string data fname =
      natToDecChars (intFromBytesBE (frame data fname)) := by
  rw [bytes_to_prime_string, strOfNat?]
  simp [intMaxStrDigits]

theorem prime_decode_encode (data fname : List Nat) :
    prime_string_to_bytes (bytes_to_prime_string data fname) =
      some (unframe (minimalBytes (intFromBytesBE (frame data fname)))) := by
  rw [prime_encode_eq, prime_string_to_bytes, pyInt?_natToDecChars]
  rw [Option.some_bind]
  rw [if_neg (by exact not_lt.2 (Int.natCast_nonneg _))]
  rw [Int.toNat_natCast]

theorem prime_roundtrip_ne (data fname : List Nat) (hd : ∀ b ∈ data, b < 256)
    (hf : ∀ b ∈ fname, b < 256) :
    prime_string_to_bytes (bytes_to_prime_string data fname) ≠ some (data, fname) := by
  rw [prime_decode_encode]
  intro hEq
  rw [Option.some.injEq] at hEq
  have hFmem : ∀ b ∈ frame data fname, b < 256 := frame_mem_lt data fname hd hf
  rw [minimalBytes_eq_dropWhile _ hFmem] at hEq
  rw [unframe, unframeStrict?_eq_none_of_headD _ (headD_dropWhile_zero (frame data fname)),
    Option.getD_none] at hEq
  rw [Prod.mk.injEq] at hEq
  obtain ⟨hdata, hfname⟩ := hEq
  have hf12 : fname.length = 12 := by
    rw [← hfname]
    rfl
  have htb : toBytesBE 4 fname.length = [0, 0, 0, 12] := by
    rw [hf12]
    rfl
  have hFexp : frame data fname =
      0 :: 0 :: 0 :: 12 :: (fname ++ (toBytesBE 4 data.length ++ data)) := by
    rw [frame_assoc, htb]
    rfl
  have hdw : (frame data fname).dropWhile (fun x => x == 0) =
      12 :: (fname ++ (toBytesBE 4 data.length ++ data)) := by
    rw [hFexp]
    rfl
  rw [hdw] at hdata
  have hlen := congrArg List.length hdata
  simp only [List.length_cons, List.length_append, toBytesBE_length, hf12] at hlen
  omega

/-! ## Lemmas: note-sequence codec -/

theorem encodeFrom_append (i : Nat) (xs ys : List Nat) :
    encodeFrom i (xs ++ ys) = encodeFrom i xs ++ encodeFrom (i + xs.length) ys := by
  induction xs generalizing i with
  | nil => simp [encodeFrom]
  | cons b t ih =>
    rw [List.cons_append]
    show _ = (MidiMsg.noteOn (48 + b % 64) (max 40 (min 127 (40 + b / 4)))
        (if 0 < i then 120 else 0) ::
      MidiMsg.noteOff (48 + b % 64) (max 40 (min 127 (40 + b / 4))) 120 ::
      encodeFrom (i + 1) t) ++ encodeFrom (i + (b :: t).length) ys
    rw [encodeFrom, ih (i + 1)]
    simp only [List.cons_append, List.length_cons]
    have h1 : i + 1 + t.length = i + (t.length + 1) := by omega
    rw [h1]

theorem encodeFrom_length (i : Nat) (xs : List Nat) :
    (encodeFrom i xs).length = 2 * xs.length := by
  induction xs generalizing i with
  | nil => rfl
  | cons b t ih =>
    simp only [encodeFrom, List.length_cons, ih (i + 1)]
    omega

/-! ## Claim theorems -/

/-- Claim C1 (amended): the Big-Integer codec round trip holds for no input
at all.  For every byte sequence and filename, decoding the string produced
by `bytes_to_prime_string` does not return `(data, fname)`: when the framed
buffer's leading byte is zero, the minimal integer rendering drops it; when
it is nonzero, the filename length is at least `2 ^ 24`, the decoder's
500-byte filename bound fails, and the legacy fallback substitutes the
filename `"decoded_file"`. -/
theorem claim_C1 (data fname : List Nat) (hd : ∀ b ∈ data, b < 256)
    (hf : ∀ b ∈ fname, b < 256) :
    prime_string_to_bytes (bytes_to_prime_string data fname) ≠ some (data, fname) :=
  prime_roundtrip_ne data fname hd hf

/-- Witness for claim C1 at a concrete input. -/
theorem claim_C1_witness :
    (∀ b ∈ ([5] : List Nat), b < 256) ∧ (∀ b ∈ ([97] : List Nat), b < 256) ∧
    prime_string_to_bytes (bytes_to_prime_string [5] [97]) ≠ some ([5], [97]) :=
  ⟨by decide, by decide, claim_C1 [5] [97] (by decide) (by decide)⟩

/-- Counterexample to claim C1 as stated: for the empty payload and a
`2 ^ 24`-byte filename the framed buffer's leading byte is nonzero, yet the
round trip still fails to recover `(data, fname)`. -/
theorem claim_C1_counterexample :
    (frame [] (List.replicate 16777216 97)).headD 0 ≠ 0 ∧
    prime_string_to_bytes (bytes_to_prime_string [] (List.replicate 16777216 97)) ≠
      some ([], List.replicate 16777216 97) := by
  constructor
  · have h1 : (List.replicate 16777216 97 : List Nat).length = 16777216 :=
      List.length_replicate 16777216 97
    rw [frame_assoc, h1]
    have h2 : toBytesBE 4 16777216 = [1, 0, 0, 0] := by decide
    rw [h2]
    simp only [List.cons_append, List.headD_cons]
    exact one_ne_zero
  · exact prime_roundtrip_ne [] (List.replicate 16777216 97) (by simp)
      (fun b hb => by rw [List.eq_of_mem_replicate hb]; norm_num)

/-- Claim C2 (amended): the prime decoder attempts only a base-10 parse; it
fails exactly when the string is not a valid base-10 numeral denoting a
nonnegative integer.  No base-16 fallback exists in the decoder. -/
theorem claim_C2 (s : List Char) :
    prime_string_to_bytes s = none ↔ ¬ ∃ n : Nat, pyInt? s = some ((n : Nat) : Int) := by
  rw [prime_string_to_bytes]
  cases h : pyInt? s with
  | none => simp
  | some z =>
    by_cases hz : z < 0
    · rw [Option.some_bind, if_pos hz]
      constructor
      · rintro - ⟨n, hn⟩
        rw [Option.some.injEq] at hn
        omega
      · intro _
        rfl
    · rw [Option.some_bind, if_neg hz]
      constructor
      · intro hcontra
        exact absurd hcontra (by simp)
      · intro hno
        exact absurd ⟨z.toNat, by rw [Int.toNat_of_nonneg (by omega)]⟩ hno

/-- Counterexample to claim C2 as stated: `"ff"` is a valid base-16 numeral,
yet the decoder fails on it because it only ever attempts `int(s)` in
base 10. -/
theorem claim_C2_counterexample :
    specValidBase16 ['f', 'f'] = true ∧ prime_string_to_bytes ['f', 'f'] = none := by
  decide

set_option maxRecDepth 8192 in
/-- Claim C3 (amended): the note-sequence round trip on a single byte `b`
recovers `b` exactly when `b % 64 < 4` or `196 ≤ b`.  In particular `0x00`
round-trips, and — contrary to the claim's hedge — `0xFF` round-trips
exactly as well, while most bytes below 128 (for which velocity is not
clamped) do not. -/
theorem claim_C3 : ∀ b : Fin 256,
    decodeTrack (encode_to_midi [b.val]) = [b.val] ↔ (b.val % 64 < 4 ∨ 196 ≤ b.val) := by
  decide

/-- Counterexample to claim C3 as stated: byte 4 is below 128 and its
velocity `41 = 40 + (4 >> 2)` is not clamped, yet decoding its encoding
yields byte 8, not 4. -/
theorem claim_C3_counterexample :
    (4 : Nat) < 128 ∧ max 40 (min 127 (40 + 4 / 4)) = 40 + 4 / 4 ∧
    decodeTrack (encode_to_midi [4]) = [8] ∧ decodeTrack (encode_to_midi [4]) ≠ [4] := by
  decide

/-- Claim C4: for every payload and every filename whose UTF-8 encoding is
valid (no unpaired surrogate) and at most 500 bytes, unframing the framed
buffer succeeds on the strict parse path and returns exactly the payload
and filename.  The payload-length bound makes the source's
`to_bytes(4, 'big')` call well-defined. -/
theorem claim_C4 (data fname : List Nat) (hutf : isValidUtf8 fname = true)
    (hflen : fname.length ≤ 500) (hdlen : data.length < 4294967296) :
    unframeStrict? (frame data fname) = some (data, fname) ∧
    unframe (frame data fname) = (data, fname) := by
  have h := unframeStrict?_frame data fname hutf hflen hdlen
  exact ⟨h, by rw [unframe, h]; rfl⟩

/-- Witness for claim C4 at a concrete payload and filename. -/
theorem claim_C4_witness :
    isValidUtf8 [97] = true ∧ ([97] : List Nat).length ≤ 500 ∧
    ([1, 2] : List Nat).length < 4294967296 ∧
    (unframeStrict? (frame [1, 2] [97]) = some ([1, 2], [97]) ∧
      unframe (frame [1, 2] [97]) = ([1, 2], [97])) :=
  ⟨by decide, by decide, by decide, claim_C4 [1, 2] [97] (by decide) (by decide) (by decide)⟩

/-- Claim C5: whenever strict framing validation fails — the buffer is too
short for the length fields, the filename length exceeds 500, the filename
slice is not valid UTF-8, or the payload length exceeds the remaining
bytes — `unframe` does not fail but returns the whole buffer with the
synthesized filename `"decoded_file"`. -/
theorem claim_C5 (full : List Nat) (h : strictFrameFails full) :
    unframe full = (full, decodedFileName) := by
  rw [unframe, unframeStrict?_eq_none_of_fails full h]
  rfl

/-- Witness for claim C5 on a concrete malformed buffer (its filename-length
field reads `0xFFFFFFFF > 500`). -/
theorem claim_C5_witness :
    strictFrameFails [255, 255, 255, 255, 0, 0, 0, 0] ∧
    unframe [255, 255, 255, 255, 0, 0, 0, 0] =
      ([255, 255, 255, 255, 0, 0, 0, 0], decodedFileName) :=
  ⟨Or.inr (Or.inl (by decide)), claim_C5 _ (Or.inr (Or.inl (by decide)))⟩

/-- Claim C6: the note-sequence codec formulas.  The byte at index
`pre.length` of the input produces a note-on with `note = 48 + (b mod 64)`,
`velocity = clamp(40 + (b >> 2), 40, 127)`, delta time 0 for the first byte
and 120 otherwise, followed by the matching note-off; and decode maps every
note-on event of the track to
`(((note - 48) mod 64) + clamp((velocity - 40) << 2, 0, 192)) mod 256`. -/
theorem claim_C6 :
    (∀ (pre : List Nat) (b : Nat) (post : List Nat),
      (encode_to_midi (pre ++ b :: post)).drop (2 * pre.length) =
        MidiMsg.noteOn (48 + b % 64) (max 40 (min 127 (40 + b / 4)))
          (if pre.length = 0 then 0 else 120) ::
        MidiMsg.noteOff (48 + b % 64) (max 40 (min 127 (40 + b / 4))) 120 ::
        encodeFrom (pre.length + 1) post) ∧
    (∀ track : List MidiMsg,
      decodeTrack track = track.filterMap fun m =>
        match m with
        | MidiMsg.noteOn n v _ =>
            some (((((n : Int) - 48) % 64 +
              min 192 (max 0 (((v : Int) - 40) * 4))) % 256).toNat)
        | MidiMsg.noteOff _ _ _ => none) := by
  constructor
  · intro pre b post
    rw [encode_to_midi, encodeFrom_append,
      drop_append_eq_right _ _ _ (encodeFrom_length 0 pre), encodeFrom]
    simp only [Nat.zero_add]
    by_cases hp : pre.length = 0
    · rw [hp]
      norm_num
    · rw [if_pos (Nat.pos_of_ne_zero hp), if_neg hp]
  · intro track
    induction track with
    | nil => rfl
    | cons m rest ih =>
      cases m with
      | noteOn n v t => simp [decodeTrack, List.filterMap_cons, ih, decodeByte]
      | noteOff n v t => simp [decodeTrack, List.filterMap_cons, ih]

/-- Claim C7: `verify` returns `match` exactly for case-insensitive
equality, `verified` exactly when both strings have length 64, and the
three documented example pairs behave as stated (in particular `match` can
be true while `verified` is false). -/
theorem claim_C7 :
    (∀ a b : List Char,
      ((verify_hashes a b).1 = true ↔ (a.length = 64 ∧ b.length = 64)) ∧
      ((verify_hashes a b).2 = true ↔ a.map lowerChar = b.map lowerChar)) ∧
    verify_hashes (List.replicate 64 'A') (List.replicate 64 'a') = (true, true) ∧
    verify_hashes (List.replicate 63 'A') (List.replicate 63 'A') = (false, true) ∧
    verify_hashes (List.replicate 64 'A') (List.replicate 64 'B') = (true, false) := by
  refine ⟨fun a b => ⟨?_, ?_⟩, by decide, by decide, by decide⟩
  · simp [verify_hashes]
  · simp [verify_hashes]

/-- Claim C8: the QR encode endpoint fails with `PayloadTooLarge` exactly
when the (non-empty) payload exceeds 500 KiB; in particular a 600 KiB
payload is rejected.  The guard precedes record construction and
rendering. -/
theorem claim_C8 :
    (∀ (hashHex : List Nat → List Char) (content fname : List Nat),
      encode_to_qr_endpoint hashHex content fname = .error .payloadTooLarge ↔
        (content ≠ [] ∧ 500 * 1024 < content.length)) ∧
    (∀ (hashHex : List Nat → List Char) (fname : List Nat),
      encode_to_qr_endpoint hashHex (List.replicate (600 * 1024) 0) fname =
        .error .payloadTooLarge) := by
  have hmain : ∀ (hashHex : List Nat → List Char) (content fname : List Nat),
      encode_to_qr_endpoint hashHex content fname = .error .payloadTooLarge ↔
        (content ≠ [] ∧ 500 * 1024 < content.length) := by
    intro hashHex content fname
    rw [encode_to_qr_endpoint]
    split_ifs with h1 h2
    · have hc : content = [] := by simpa [List.isEmpty_iff] using h1
      subst hc
      simp
    · have hne : content ≠ [] := by simpa [List.isEmpty_iff] using h1
      simp [hne, h2]
    · simp [h2]
  refine ⟨hmain, fun hashHex fname => ?_⟩
  rw [hmain]
  have hlen : (List.replicate (600 * 1024) (0 : Nat)).length = 600 * 1024 :=
    List.length_replicate (600 * 1024) 0
  constructor
  · intro hcontra
    have := congrArg List.length hcontra
    rw [hlen] at this
    exact absurd this (by norm_num)
  · rw [hlen]
    norm_num

/-- Claim C9: each content-consuming endpoint fails with `EmptyInput`
exactly on the empty buffer — for the MIDI decode endpoint independently of
the carrier parser, so the guard fires before any codec logic. -/
theorem claim_C9 :
    (∀ (parseMidi : List Nat → Option (List (List MidiMsg))) (content : List Nat),
      decode_from_midi_endpoint parseMidi content = .error .emptyInput ↔ content = []) ∧
    (∀ content : List Nat,
      encode_to_midi_endpoint content = .error .emptyInput ↔ content = []) ∧
    (∀ content fname : List Nat,
      encode_to_prime_endpoint content fname = .error .emptyInput ↔ content = []) ∧
    (∀ (hashHex : List Nat → List Char) (content fname : List Nat),
      encode_to_qr_endpoint hashHex content fname = .error .emptyInput ↔ content = []) := by
  refine ⟨fun parseMidi content => ?_, fun content => ?_, fun content fname => ?_,
    fun hashHex content fname => ?_⟩
  · rw [decode_from_midi_endpoint]
    split_ifs with h1
    · simp_all [List.isEmpty_iff]
    · cases hp : parseMidi content with
      | none => simp_all [List.isEmpty_iff]
      | some tracks =>
        cases tracks with
        | nil => simp_all [List.isEmpty_iff]
        | cons t r => simp_all [List.isEmpty_iff]
  · rw [encode_to_midi_endpoint]
    split_ifs with h1 <;> simp_all [List.isEmpty_iff]
  · rw [encode_to_prime_endpoint]
    split_ifs with h1 <;> simp_all [List.isEmpty_iff]
  · rw [encode_to_qr_endpoint]
    split_ifs with h1 h2 <;> simp_all [List.isEmpty_iff]

/-- Claim C10 (amended): within the domain of the source's
`to_bytes(4, 'big')` calls — filename and payload lengths below `2 ^ 32` —
the header construction succeeds and, because the digit limit is disabled
at startup (`sys.set_int_max_str_digits(0)`), rendering the framed integer
in base 10 always succeeds, so encode returns the decimal string and the
hex-fallback arm is unreachable.  Outside that domain encode is not total:
the header construction raises an uncaught `OverflowError` before the
`try` (see the counterexample). -/
theorem claim_C10 (data fname : List Nat) (hdl : data.length < 4294967296)
    (hfl : fname.length < 4294967296) :
    frame? data fname = some (frame data fname) ∧
    bytes_to_prime_string? data fname =
      some (natToDecChars (intFromBytesBE (frame data fname))) ∧
    strOfNat? (intFromBytesBE (frame data fname)) =
      some (natToDecChars (intFromBytesBE (frame data fname))) ∧
    bytes_to_prime_string data fname =
      natToDecChars (intFromBytesBE (frame data fname)) := by
  have h2564 : (256 : ℕ) ^ 4 = 4294967296 := by norm_num
  have hframe : frame? data fname = some (frame data fname) := by
    rw [frame?]
    rw [toBytesBE?, if_pos (show fname.length < 256 ^ 4 by rw [h2564]; exact hfl)]
    rw [Option.some_bind]
    rw [toBytesBE?, if_pos (show data.length < 256 ^ 4 by rw [h2564]; exact hdl)]
    rw [Option.map_some']
    rw [frame]
  refine ⟨hframe, ?_, ?_, prime_encode_eq data fname⟩
  · rw [bytes_to_prime_string?, hframe, Option.map_some', strOfNat?]
    simp [intMaxStrDigits]
  · rw [strOfNat?]
    simp [intMaxStrDigits]

/-- Witness for claim C10 at a concrete in-domain input. -/
theorem claim_C10_witness :
    (([5] : List Nat).length < 4294967296) ∧ (([97] : List Nat).length < 4294967296) ∧
    (frame? [5] [97] = some (frame [5] [97]) ∧
     bytes_to_prime_string? [5] [97] =
       some (natToDecChars (intFromBytesBE (frame [5] [97]))) ∧
     strOfNat? (intFromBytesBE (frame [5] [97])) =
       some (natToDecChars (intFromBytesBE (frame [5] [97]))) ∧
     bytes_to_prime_string [5] [97] =
       natToDecChars (intFromBytesBE (frame [5] [97]))) :=
  ⟨by decide, by decide, claim_C10 [5] [97] (by decide) (by decide)⟩

/-- Counterexample to claim C10 as stated: encode is not total.  For a
payload of `2 ^ 32` bytes the `data_len.to_bytes(4, 'big')` call of the
header construction — outside the `try` — raises `OverflowError`, so
encode fails before any rendering. -/
theorem claim_C10_counterexample :
    frame? (List.replicate 4294967296 0) [] = none ∧
    bytes_to_prime_string? (List.replicate 4294967296 0) [] = none := by
  have hlen : (List.replicate 4294967296 (0 : Nat)).length = 4294967296 :=
    List.length_replicate 4294967296 0
  have hfr : frame? (List.replicate 4294967296 0) [] = none := by
    rw [frame?]
    rw [show toBytesBE? 4 ([] : List Nat).length = some (toBytesBE 4 0) from by
      rw [List.length_nil, toBytesBE?, if_pos (by norm_num)]]
    rw [Option.some_bind, hlen]
    rw [show toBytesBE? 4 4294967296 = none from by
      rw [toBytesBE?, if_neg (by norm_num)]]
    rfl
  refine ⟨hfr, ?_⟩
  rw [bytes_to_prime_string?, hfr]
  rfl
